import Mathlib

/-!
Verification of the goroutine-leak detector core: the stack-dump line
grammar (header lines, call lines, creator lines, location lines), the
per-stack record it produces, and the creator-dependency graph builder
and tree renderer.

Strings are embedded as `List Char`; each Go string function used by the
code (`strings.TrimSuffix`, `strings.SplitN`, `strconv.Atoi`, ...) is
translated into an executable Lean function of the same behaviour.
The line scanner with its single-line pushback buffer is represented by
passing the list of remaining lines explicitly: `Scan` takes the head of
the list and `Unscan` puts it back.
-/

namespace Goleak

/-- Convert a string literal to the `List Char` representation used
throughout this development. -/
def str (s : String) : List Char := s.toList

/-- Go `strings.TrimSuffix`: drop `suf` from the end of `s` when present. -/
def trimSuf (s suf : List Char) : List Char :=
  if suf.isSuffixOf s then s.take (s.length - suf.length) else s

/-- Go `strings.TrimPrefix`: drop `pre` from the front of `s` when present. -/
def trimPre (pre s : List Char) : List Char :=
  if pre.isPrefixOf s then s.drop pre.length else s

/-- Go `strings.CutPrefix`: the remainder after `pre`, when `pre` leads `s`. -/
def cutPre (pre s : List Char) : Option (List Char) :=
  if pre.isPrefixOf s then some (s.drop pre.length) else none

/-- Go `strings.Index`: index of the first occurrence of `needle`,
`none` standing for Go result -1. -/
def strIdx (needle : List Char) : List Char → Option Nat
  | [] => if needle = [] then some 0 else none
  | c :: rest =>
    if needle.isPrefixOf (c :: rest) then some 0
    else (strIdx needle rest).map (· + 1)

/-- Go `strings.LastIndexByte`: index of the last occurrence of `c`. -/
def lastIdx (c : Char) : List Char → Option Nat
  | [] => none
  | a :: rest =>
    match lastIdx c rest with
    | some i => some (i + 1)
    | none => if a = c then some 0 else none

/-- Split at the first space, dropping the space (the step function of
Go `strings.SplitN` with separator `" "`). -/
def breakSp : List Char → Option (List Char × List Char)
  | [] => none
  | c :: rest =>
    if c = ' ' then some ([], rest)
    else (breakSp rest).map (fun p => (c :: p.1, p.2))

/-- Go `strings.SplitN(s, " ", limit)` for a positive limit. -/
def splitN (limit : Nat) (s : List Char) : List (List Char) :=
  match limit with
  | 0 => []
  | 1 => [s]
  | l + 2 =>
    match breakSp s with
    | none => [s]
    | some (a, b) => a :: splitN (l + 1) b

/-- The decimal digit character for a value below ten. -/
def digitChar : Nat → Char
  | 0 => '0' | 1 => '1' | 2 => '2' | 3 => '3' | 4 => '4'
  | 5 => '5' | 6 => '6' | 7 => '7' | 8 => '8' | _ => '9'

/-- Fuelled big-endian decimal rendering of a natural number; the fuel
only bounds the recursion depth and any fuel of at least the number
itself is enough. -/
def natDigitsAux : Nat → Nat → List Char
  | 0, _ => []
  | fuel + 1, n => if n = 0 then [] else natDigitsAux fuel (n / 10) ++ [digitChar (n % 10)]

/-- Decimal rendering of a natural number, as Go `strconv.Itoa` prints it. -/
def natDigits (n : Nat) : List Char :=
  if n = 0 then ['0'] else natDigitsAux (n + 1) n

/-- Numeric value of a string of decimal digit characters. -/
def digitsVal (l : List Char) : Nat :=
  l.foldl (fun a c => 10 * a + (c.toNat - 48)) 0

/-- Go `strconv.Atoi` restricted to inputs that fit the platform integer:
an optional sign followed by a nonempty run of decimal digits. -/
def atoi (s : List Char) : Option Int :=
  match s with
  | [] => none
  | c :: rest =>
    if c = '-' then
      if rest ≠ [] ∧ rest.all Char.isDigit then some (-(digitsVal rest : Int)) else none
    else if c = '+' then
      if rest ≠ [] ∧ rest.all Char.isDigit then some ((digitsVal rest : Int)) else none
    else if (c :: rest).all Char.isDigit then some ((digitsVal (c :: rest) : Int)) else none

/-- Go `fmt` `%d` rendering of an integer. -/
def intToChars (n : Int) : List Char :=
  if n < 0 then '-' :: natDigits n.natAbs else natDigits n.toNat

/-- ASCII whitespace test backing the model of Go `strings.TrimSpace`. -/
def isSpaceChar (c : Char) : Bool :=
  c = ' ' || c = '\t' || c = '\n' || c = '\r'

/-- Go `strings.TrimSpace` (over the ASCII whitespace the dumps contain). -/
def trimSpace (s : List Char) : List Char :=
  ((s.dropWhile isSpaceChar).reverse.dropWhile isSpaceChar).reverse

/-- Insertion into the list modelling of a Go `map[string]struct{}` set:
add the key when it is not yet present. -/
def insertSet (s : List (List Char)) (x : List Char) : List (List Char) :=
  if x ∈ s then s else s ++ [x]

/-- Modelled from the spec: the DumpScanner splits the raw dump bytes
into logical lines, tolerating a missing trailing newline (the scanner
source file is not among the given sources).  Line terminators are not
part of the produced lines. -/
def splitLinesAux (curr : List Char) : List Char → List (List Char)
  | [] => if curr = [] then [] else [curr]
  | c :: rest =>
    if c = '\n' then curr :: splitLinesAux [] rest
    else splitLinesAux (curr ++ [c]) rest

/-- Modelled from the spec: split dump text into lines. -/
def splitLines (s : List Char) : List (List Char) := splitLinesAux [] s

/-! ### Basic lemmas about the string helpers -/

theorem isPrefixOf_append_self (p r : List Char) : p.isPrefixOf (p ++ r) = true := by
  induction p with
  | nil => simp [List.isPrefixOf]
  | cons c cs ih => simp [List.isPrefixOf, ih]

theorem isSuffixOf_append_singleton (c d : Char) (a : List Char) :
    ([c].isSuffixOf (a ++ [d])) = (c == d) := by
  simp only [List.isSuffixOf, List.reverse_append, List.reverse_cons, List.reverse_nil,
    List.nil_append, List.singleton_append, List.isPrefixOf]
  cases h : c == d <;> simp [h, List.isPrefixOf]

theorem trimSuf_append_singleton (a : List Char) (c : Char) :
    trimSuf (a ++ [c]) [c] = a := by
  have hs : ([c].isSuffixOf (a ++ [c])) = true := by
    simp [isSuffixOf_append_singleton]
  simp [trimSuf, hs, List.take_left]

theorem trimSuf_singleton_ne (a : List Char) (c d : Char) (h : (c == d) = false) :
    trimSuf (a ++ [d]) [c] = a ++ [d] := by
  simp [trimSuf, isSuffixOf_append_singleton, h]

theorem breakSp_append_nosp (a b : List Char) (h : ∀ c ∈ a, c ≠ ' ') :
    breakSp (a ++ ' ' :: b) = some (a, b) := by
  induction a with
  | nil => simp [breakSp]
  | cons c cs ih =>
    have hc : c ≠ ' ' := h c (by simp)
    have ih' := ih (fun x hx => h x (by simp [hx]))
    simp [breakSp, hc, ih']

theorem digitChar_isDigit (d : Nat) (h : d < 10) : (digitChar d).isDigit = true := by
  interval_cases d <;> decide

theorem digitChar_val (d : Nat) (h : d < 10) : (digitChar d).toNat - 48 = d := by
  interval_cases d <;> decide

theorem natDigitsAux_all_digits (fuel n : Nat) :
    ∀ c ∈ natDigitsAux fuel n, c.isDigit = true := by
  induction fuel generalizing n with
  | zero => simp [natDigitsAux]
  | succ fuel ih =>
    intro c hc
    simp only [natDigitsAux] at hc
    by_cases h0 : n = 0
    · simp [h0] at hc
    · simp only [h0, if_false, List.mem_append, List.mem_singleton] at hc
      rcases hc with hc | hc
      · exact ih (n / 10) c hc
      · subst hc; exact digitChar_isDigit _ (Nat.mod_lt _ (by omega))

theorem natDigits_all_digits (n : Nat) : ∀ c ∈ natDigits n, c.isDigit = true := by
  intro c hc
  simp only [natDigits] at hc
  by_cases h0 : n = 0
  · simp [h0] at hc; subst hc; decide
  · simp only [h0, if_false] at hc
    exact natDigitsAux_all_digits _ _ c hc

theorem natDigits_ne_nil (n : Nat) : natDigits n ≠ [] := by
  simp only [natDigits]
  by_cases h0 : n = 0
  · simp [h0]
  · simp only [h0, if_false]
    match n, h0 with
    | n + 1, _ =>
      simp [natDigitsAux]

theorem digitsVal_append_digit (a : List Char) (c : Char) :
    digitsVal (a ++ [c]) = 10 * digitsVal a + (c.toNat - 48) := by
  simp [digitsVal, List.foldl_append]

theorem digitsVal_natDigitsAux (fuel n : Nat) (h : n ≤ fuel) :
    digitsVal (natDigitsAux fuel n) = n := by
  induction fuel generalizing n with
  | zero => interval_cases n; simp [natDigitsAux, digitsVal]
  | succ fuel ih =>
    by_cases h0 : n = 0
    · simp [h0, natDigitsAux, digitsVal]
    · have hdiv : n / 10 ≤ fuel := by
        have : n / 10 < n := Nat.div_lt_self (by omega) (by omega)
        omega
      simp only [natDigitsAux, h0, if_false]
      rw [digitsVal_append_digit, ih _ hdiv, digitChar_val _ (Nat.mod_lt _ (by omega))]
      omega

theorem digitsVal_natDigits (n : Nat) : digitsVal (natDigits n) = n := by
  simp only [natDigits]
  by_cases h0 : n = 0
  · simp [h0, digitsVal]
  · simp only [h0, if_false]
    exact digitsVal_natDigitsAux _ _ (by omega)

theorem isDigit_ne_space (c : Char) (h : c.isDigit = true) : c ≠ ' ' := by
  intro he; subst he; simp [Char.isDigit] at h

theorem isDigit_ne_minus (c : Char) (h : c.isDigit = true) : c ≠ '-' := by
  intro he; subst he; simp [Char.isDigit] at h

theorem isDigit_ne_plus (c : Char) (h : c.isDigit = true) : c ≠ '+' := by
  intro he; subst he; simp [Char.isDigit] at h

theorem atoi_natDigits (n : Nat) : atoi (natDigits n) = some (n : Int) := by
  have hne := natDigits_ne_nil n
  have hdig := natDigits_all_digits n
  match hd : natDigits n with
  | [] => exact absurd hd hne
  | c :: rest =>
    have hc : c.isDigit = true := by
      apply hdig; rw [hd]; simp
    have hall : (c :: rest).all Char.isDigit = true := by
      rw [List.all_eq_true]
      intro x hx
      apply hdig; rw [hd]; exact hx
    have := digitsVal_natDigits n
    rw [hd] at this
    simp [atoi, isDigit_ne_minus c hc, isDigit_ne_plus c hc, hall, this]

/-! ### Data model: stack entries, per-goroutine stacks, parse errors -/

/-- One entry of a goroutine stack (source type `Entry`). -/
structure Entry where
  FunctionCall : List Char
  Location : List Char
  IsSource : Bool
deriving DecidableEq, Repr

/-- A single goroutine stack (source type `Stack`). -/
structure Stack where
  id : Int
  state : List Char
  firstFunction : List Char
  allFunctions : List (List Char)
  fullStack : List Char
  entries : List Entry
deriving DecidableEq, Repr

/-- A stack value with every field zeroed, used only as the default of
list indexing in closed statements. -/
def emptyStack : Stack := ⟨0, [], [], [], [], []⟩

/-- Parse errors: the three `fmt.Errorf` shapes of the parser.  The
message texts are irrelevant to the claims; the constructors record the
offending text the way the format arguments do. -/
inductive PErr where
  | badHeader : List Char → PErr
  | badID : List Char → List Char → PErr
  | noFunc : List Char → PErr
deriving DecidableEq, Repr

/-- The header token the parser scans for (`"goroutine "`). -/
def gorHdr : List Char := str "goroutine "

/-- Source `parseFuncName`: extract the function identifier of a call
line and report whether it is a `"created by "` line. -/
def parseFuncName (line : List Char) : Except PErr (List Char × Bool) :=
  let nc : List Char × Bool :=
    match cutPre (str "created by ") line with
    | some after =>
      (match strIdx (str " in goroutine") after with
       | some idx => after.take idx
       | none => after, true)
    | none =>
      match lastIdx '(' line with
      | some idx => (line.take idx, false)
      | none => ([], false)
  if nc.1 = [] then .error (.noFunc line) else .ok nc

/-- Source `parseGoStackHeader`: parse `goroutine <id> [<state>]` out of
a header line, trimming a trailing `":"` and then a trailing `"\n"`. -/
def parseGoStackHeader (line : List Char) : Except PErr (Int × List Char) :=
  let l := trimSuf (trimSuf line (str ":")) (str "\n")
  let parts := splitN 3 l
  if parts.length = 3 then
    match atoi (parts.getD 1 []) with
    | none => .error (.badID (parts.getD 1 []) l)
    | some id => .ok (id, trimSuf (trimPre (str "[") (parts.getD 2 [])) (str "]"))
  else .error (.badHeader l)

/-- The mutable locals of the `parseStack` loop. -/
structure PAcc where
  firstFunction : List Char
  funcs : List (List Char)
  fullStack : List Char
  entries : List Entry
  cur : Entry
deriving DecidableEq, Repr

/-- The accumulator at loop entry: empty strings, empty collections and
a zero-valued `currentEntry`. -/
def pacc0 : PAcc := ⟨[], [], [], [], ⟨[], [], false⟩⟩

/-- Directive produced by one iteration of the `parseStack` body loop:
stop with a result, continue at the next line, or continue after also
consuming the location line. -/
inductive StepRes where
  | stop : (Except PErr PAcc) × List (List Char) → StepRes
  | cont1 : PAcc → StepRes
  | cont2 : PAcc → StepRes
deriving Repr

/-- One iteration of the body loop of source `parseStack`, on current
line `l` with remaining lines `ls`: the header check (`Unscan` and
stop), the verbatim `fullStack` append, the blank-line and
frames-elided skips, `parseFuncName`, the `firstFunction`/`funcs`
update for ordinary frames and the `IsSource` mark for creator frames,
and the lookahead consuming a tab-led location line (pushed back
otherwise).  `cont1` resumes at `ls`, `cont2` at `ls` minus its
consumed location head. -/
def bodyStep (acc : PAcc) (l : List Char) (ls : List (List Char)) : StepRes :=
  if gorHdr.isPrefixOf l then
    -- next goroutine header: Unscan it and stop
    .stop (.ok acc, l :: ls)
  else
    let acc1 : PAcc := { acc with fullStack := acc.fullStack ++ l ++ ['\n'] }
    if l = [] then .cont1 acc1
    else if (str "...").isPrefixOf l && (str " frames elided...").isSuffixOf l then
      .cont1 acc1
    else
      match parseFuncName l with
      | .error e => .stop (.error e, ls)
      | .ok (name, creator) =>
        let acc2 : PAcc := { acc1 with cur := { acc1.cur with FunctionCall := l } }
        let acc3 : PAcc :=
          if creator then { acc2 with cur := { acc2.cur with IsSource := true } }
          else
            { acc2 with
              funcs := insertSet acc2.funcs name,
              firstFunction := if acc2.firstFunction = [] then name else acc2.firstFunction }
        match ls with
        | [] => .stop (.ok acc3, [])
        | loc :: ls2 =>
          if loc.head? = some '\t' then
            let acc4 : PAcc := { acc3 with cur := { acc3.cur with Location := loc } }
            let acc5 : PAcc :=
              { acc4 with
                entries := acc4.entries ++ [acc4.cur],
                fullStack := acc4.fullStack ++ loc ++ ['\n'] }
            if creator then .stop (.ok acc5, ls2) else .cont2 acc5
          else
            if creator then .stop (.ok acc3, loc :: ls2) else .cont1 acc3

/-- The body loop of source `parseStack`: consume the lines after the
header until the next header line (pushed back), a consumed creator
location, or end of input.  Returns the final locals and the lines left
in the scanner.  (`cont2` with an empty `ls` cannot be produced by
`bodyStep`; that branch is dead.) -/
def parseBody (acc : PAcc) : List (List Char) → (Except PErr PAcc) × List (List Char)
  | [] => (.ok acc, [])
  | l :: ls =>
    match bodyStep acc l ls with
    | .stop r => r
    | .cont1 acc' => parseBody acc' ls
    | .cont2 acc' =>
      match ls with
      | [] => (.ok acc', [])
      | _ :: ls2 => parseBody acc' ls2

/-- Source `parseStack`: parse the header line, then run the body loop
and assemble the `Stack` record. -/
def parseStack (header : List Char) (ls : List (List Char)) :
    (Except PErr Stack) × List (List Char) :=
  match parseGoStackHeader header with
  | .error e => (.error e, ls)
  | .ok (id, st) =>
    match parseBody pacc0 ls with
    | (.error e, rem) => (.error e, rem)
    | (.ok acc, rem) =>
      (.ok ⟨id, st, acc.firstFunction, acc.funcs, acc.fullStack, acc.entries⟩, rem)

theorem bodyStep_stop_rem_length (acc : PAcc) (l : List Char) (ls : List (List Char))
    (r : Except PErr PAcc) (rem : List (List Char))
    (h : bodyStep acc l ls = .stop (r, rem)) : rem.length ≤ (l :: ls).length := by
  unfold bodyStep at h
  dsimp only at h
  repeat' split at h
  all_goals cases h
  all_goals simp only [List.length_cons, List.length_nil] <;> omega

theorem parseBody_rem_length_aux :
    ∀ (n : Nat) (ls : List (List Char)), ls.length ≤ n →
      ∀ acc, (parseBody acc ls).2.length ≤ ls.length := by
  intro n
  induction n with
  | zero =>
    intro ls h acc
    have : ls = [] := List.length_eq_zero.mp (Nat.le_zero.mp h)
    subst this
    simp [parseBody]
  | succ n ih =>
    intro ls h acc
    match ls with
    | [] => simp [parseBody]
    | l :: ls' =>
      have hls' : ls'.length ≤ n := by simp at h; omega
      simp only [parseBody]
      match hstep : bodyStep acc l ls' with
      | .stop (r, rem) => exact bodyStep_stop_rem_length acc l ls' r rem hstep
      | .cont1 acc' => exact le_trans (ih ls' hls' acc') (by simp)
      | .cont2 acc' =>
        match ls' with
        | [] => simp
        | x :: ls2 =>
          have hls2 : ls2.length ≤ n := by simp at hls'; omega
          calc (parseBody acc' ls2).2.length ≤ ls2.length := ih ls2 hls2 acc'
            _ ≤ (l :: x :: ls2).length := by simp; omega

theorem parseBody_rem_length (acc : PAcc) (ls : List (List Char)) :
    (parseBody acc ls).2.length ≤ ls.length :=
  parseBody_rem_length_aux ls.length ls le_rfl acc

theorem parseStack_rem_length (header : List Char) (ls : List (List Char)) :
    (parseStack header ls).2.length ≤ ls.length := by
  unfold parseStack
  match parseGoStackHeader header with
  | .error e => simp
  | .ok (id, st) =>
    have h := parseBody_rem_length pacc0 ls
    match hb : parseBody pacc0 ls with
    | (.error e, rem) => rw [hb] at h; simpa using h
    | (.ok acc, rem) => rw [hb] at h; simpa using h

/-- Source `stackParser.Parse`: scan for header lines; on each, run
`parseStack`; collect successful stacks and all per-stack errors. -/
def parseLoop : List (List Char) → List Stack × List PErr
  | [] => ([], [])
  | l :: ls =>
    if gorHdr.isPrefixOf l then
      match h : parseStack l ls with
      | (.ok st, rem) =>
        let r := parseLoop rem
        (st :: r.1, r.2)
      | (.error e, rem) =>
        let r := parseLoop rem
        (r.1, e :: r.2)
    else parseLoop ls
termination_by ls => ls.length
decreasing_by
  · have hle := parseStack_rem_length loc ls2
    rw [h] at hle
    simp only [List.length_cons] at hle ⊢
    omega
  · have hle := parseStack_rem_length loc ls2
    rw [h] at hle
    simp only [List.length_cons] at hle ⊢
    omega
  · simp only [List.length_cons]
    omega

/-- Source `ParseStack` over raw dump text: split into lines (scanner)
and run the parsing loop.  The scanner error appended by `Parse` is
always absent for an in-memory byte reader and `errors.Join` drops it. -/
def ParseModel (input : List Char) : List Stack × List PErr :=
  parseLoop (splitLines input)

/-! ### The source-goroutine regexp and the pretty printer -/

/-- The token matched by the regexp `goroutine (\d+)`. -/
def gorTok : List Char := str "goroutine "

/-- `sourceGoroutineRe.FindStringSubmatch`: the capture of the leftmost
match of `goroutine (\d+)` — the maximal digit run following the first
occurrence of `"goroutine "` that is followed by at least one digit.
`none` models the nil result (no match, submatch list of length 0). -/
def findGorStr : List Char → Option (List Char)
  | [] => none
  | c :: rest =>
    if gorTok.isPrefixOf (c :: rest) && (((c :: rest).drop 10).headD ' ').isDigit then
      some (((c :: rest).drop 10).takeWhile Char.isDigit)
    else findGorStr rest

/-- Source `Stack.SourceGoroutineID` inner loop over entries: the first
source entry whose call text matches the regexp yields the captured id;
later entries are tried when the regexp does not match.  `strconv.Atoi`
on a `\d+` capture only fails on overflow, which the `Nat` value model
does not have. -/
def sgidAux : List Entry → Int
  | [] => -1
  | e :: es =>
    if e.IsSource then
      match findGorStr e.FunctionCall with
      | some ds => (digitsVal ds : Int)
      | none => sgidAux es
    else sgidAux es

/-- Source `Stack.SourceGoroutineID`. -/
def SourceGoroutineID (s : Stack) : Int := sgidAux s.entries

/-- Source `Stack.SourceEntry`: the first entry marked as source, or the
zero value. -/
def SourceEntry (s : Stack) : Entry :=
  match s.entries.find? (fun e => e.IsSource) with
  | some e => e
  | none => ⟨[], [], false⟩

/-- Source `Stack.PrettyPrint`.  The aurora colour wrappers are modelled
from the spec as pure text decoration and taken to be the identity (the
aurora package is not among the given sources); the claims about this
function do not depend on the decoration.  The result is `none` exactly
when the source code would index `FindStringSubmatch(...)[1]` on a nil
(no-match) result, which is an out-of-range access. -/
def PrettyPrint (s : Stack) (filters : List (Stack → Bool)) : Option (List Char) :=
  let source := s.entries.find? (fun e => e.IsSource)
  let base :=
    ['\n'] ++ str "Goroutine ID" ++ str ": " ++ intToChars s.id ++ ['\n']
      ++ str "State" ++ str ": " ++ s.state ++ ['\n']
  let mid : Option (List Char) :=
    match source with
    | some e =>
      match findGorStr e.FunctionCall with
      | none => none
      | some ds =>
        some (str "Source Goroutine ID" ++ str ": " ++ ds ++ ['\n']
          ++ str "Created At" ++ str ": " ++ trimPre (str "created by ") e.FunctionCall ++ ['\n']
          ++ str "Location" ++ str ": " ++ trimSpace e.Location ++ ['\n'])
    | none =>
      some (str "First Function" ++ str ": " ++ s.firstFunction ++ ['\n'])
  match mid with
  | none => none
  | some m =>
    let hdr := str "Full Stack" ++ str ": " ++ ['\n', '\n']
    let body := s.entries.foldl
      (fun out e =>
        -- with identity colour decoration, matched and unmatched
        -- entries produce the same bytes
        let _matched := filters.any (fun f => f s)
        out ++ e.FunctionCall ++ ['\n'] ++ e.Location ++ ['\n'])
      []
    some (base ++ m ++ hdr ++ body ++ ['\n'])

/-! ### Dependency graph construction and rendering (source util.go)

Go maps do not fix an enumeration order; `PrintGraph` and `findRoots`
iterate over the graph map, so the rendering is parametrised by the
enumeration order `order` of the graph's keys.  The recursion of
`printSubGraph` is not bounded in the source; the model adds explicit
fuel, consumed once per recursive call, so that a run that never
finishes is `none` for every fuel. -/

/-- The graph `map[int][]int`, as an association list whose key order
models one enumeration order (Go map insertion order is used where the
code itself builds the map). -/
abbrev GGraph := List (Int × List Int)

/-- Map lookup `graph[node]` with its `exists` flag. -/
def lookupG (g : GGraph) (n : Int) : Option (List Int) :=
  match g.find? (fun p => p.1 == n) with
  | some p => some p.2
  | none => none

/-- Append `item` to `graph[source]` (Go `graph[source] = append(...)`). -/
def appendChild (g : GGraph) (src item : Int) : GGraph :=
  match g with
  | [] => [(src, [item])]
  | (k, cs) :: rest =>
    if k = src then (k, cs ++ [item]) :: rest else (k, cs) :: appendChild rest src item

/-- Collect every id appearing as item or source, first occurrence
first (the `allNodes` set of source `BuildGraph`). -/
def collectNodes (mapping : List (Int × Int)) : List Int :=
  mapping.foldl
    (fun ns p =>
      let ns1 := if p.1 ∈ ns then ns else ns ++ [p.1]
      if p.2 ∈ ns1 then ns1 else ns1 ++ [p.2])
    []

/-- Source `BuildGraph`: build adjacency from the item→source mapping,
add an empty entry for every node without children, and sort every
child list ascending. -/
def BuildGraph (mapping : List (Int × Int)) : GGraph :=
  let g1 := mapping.foldl (fun g p => appendChild g p.2 p.1) []
  let g2 := (collectNodes mapping).foldl
    (fun g n => if (lookupG g n).isNone then g ++ [(n, [])] else g) g1
  g2.map (fun p => (p.1, p.2.insertionSort (· ≤ ·)))

/-- The keys of the built graph, in insertion order: one possible
enumeration order of the Go map. -/
def graphKeys (g : GGraph) : List Int := g.map (fun p => p.1)

/-- Source `findRoots`: the ids that appear in no child list, in the
order `order` enumerates the map's keys. -/
def findRoots (g : GGraph) (order : List Int) : List Int :=
  order.filter (fun n => !(g.any (fun p => p.2.contains n)))

/-- Tag each child with the `i == len(children)-1` flag of the source
loop. -/
def tagLast : List Int → List (Int × Bool)
  | [] => []
  | [c] => [(c, true)]
  | c :: c2 :: rest => (c, false) :: tagLast (c2 :: rest)

mutual

/-- Source `printSubGraph`: mark the node visited, print its line, then
recurse into each child — with no check of the visited set before
descending.  Fuel is consumed on each recursive call; `none` means the
fuel ran out. -/
def printSub (g : GGraph) (defs : Int → List Char) :
    Nat → Int → List Char → Bool → List Int → Option (List Char × List Int)
  | 0, _, _, _, _ => none
  | n + 1, node, pfx, isLast, visited =>
    let visited1 := node :: visited
    let line := pfx ++ (if isLast then str "└── " else str "├── ")
      ++ intToChars node ++ str " (" ++ defs node ++ str ")" ++ ['\n']
    let childPfx := pfx ++ (if isLast then str "    " else str "│   ")
    match lookupG g node with
    | none => some (line, visited1)
    | some cs =>
      match printMany g defs n (tagLast cs) childPfx visited1 with
      | none => none
      | some (out, v) => some (line ++ out, v)

/-- The `for i, child := range children` loop of `printSubGraph`. -/
def printMany (g : GGraph) (defs : Int → List Char) :
    Nat → List (Int × Bool) → List Char → List Int → Option (List Char × List Int)
  | _, [], _, visited => some ([], visited)
  | 0, _ :: _, _, _ => none
  | n + 1, (c, last) :: rest, pfx, visited =>
    match printSub g defs n c pfx last visited with
    | none => none
    | some (o1, v1) =>
      match printMany g defs n rest pfx v1 with
      | none => none
      | some (o2, v2) => some (o1 ++ o2, v2)

end

/-- The root loop of source `PrintGraph`: every root is rendered with
`isLast = true` and an empty indent. -/
def printRoots (g : GGraph) (defs : Int → List Char) (fuel : Nat) :
    List Int → List Int → Option (List Char × List Int)
  | [], visited => some ([], visited)
  | r :: rs, visited =>
    match printSub g defs fuel r [] true visited with
    | none => none
    | some (o1, v1) =>
      match printRoots g defs fuel rs v1 with
      | none => none
      | some (o2, v2) => some (o1 ++ o2, v2)

/-- The disconnected-nodes loop of source `PrintGraph`: any node not
yet visited is rendered as a fresh root. -/
def printOrphans (g : GGraph) (defs : Int → List Char) (fuel : Nat) :
    List Int → List Int → Option (List Char × List Int)
  | [], visited => some ([], visited)
  | x :: xs, visited =>
    if x ∈ visited then printOrphans g defs fuel xs visited
    else
      match printSub g defs fuel x [] true visited with
      | none => none
      | some (o1, v1) =>
        match printOrphans g defs fuel xs v1 with
        | none => none
        | some (o2, v2) => some (o1 ++ o2, v2)

/-- Source `PrintGraph`: render all roots, then all not-yet-visited
nodes, `order` being the enumeration order of the graph map's keys. -/
def PrintGraphF (fuel : Nat) (g : GGraph) (order : List Int) (defs : Int → List Char) :
    Option (List Char) :=
  match printRoots g defs fuel (findRoots g order) [] with
  | none => none
  | some (o1, v1) =>
    match printOrphans g defs fuel order v1 with
    | none => none
    | some (o2, _) => some (o1 ++ o2)

/-- The all-empty `defs` map: `defs[node]` of a missing key is the zero
`Entry`, whose call text is empty. -/
def defsZero : Int → List Char := fun _ => []

/-! ### The detection entry points `Find` and `FindAndPrettyPrint` -/

/-- Modelled from the spec: the configuration value assembled by
`buildOpts` (the options source file is not among the given sources).
`cleanup` records whether a cleanup callback option was supplied;
`retry` is the retry policy consulted with the 0-based attempt index;
`filterFn` is the disjunction of the default and user filters run by
`filterStacks`. -/
structure GoOpts where
  cleanup : Bool
  retry : Nat → Bool
  filterFn : Stack → Bool

/-- Observable actions of a detection call, recorded in order: the
own-stack sample taken by `stack.Current()`, each full live-set sample
taken by `stack.All()`, and each consultation of the retry policy. -/
inductive FindEvent where
  | currentSample : FindEvent
  | fullSample : Nat → FindEvent
  | retryConsult : Nat → FindEvent
deriving DecidableEq, Repr

/-- Outcome of a detection call. -/
inductive FindRes where
  | configErr : FindRes
  | ok : FindRes
  | leak : List Stack → FindRes
deriving Repr

/-- Source `filterStacks`: drop the detecting goroutine's own stack and
every stack a configured filter matches, preserving order. -/
def filterStacks (sts : List Stack) (skipID : Int) (opts : GoOpts) : List Stack :=
  sts.filter (fun s => !(s.id == skipID) && !(opts.filterFn s))

/-- The retry loop shared by `Find` and `FindAndPrettyPrint`:
`for i := 0; retry; i++`.  `samples i` is the dump parsed on attempt
`i` (the runtime dump acquisition is an opaque collaborator).  The
loop has no bound in the source when the policy keeps returning true,
so the model carries fuel; `none` means the fuel ran out. -/
def findIter (opts : GoOpts) (curID : Int) (samples : Nat → List Stack) :
    Nat → Nat → Option FindRes × List FindEvent
  | 0, _ => (none, [])
  | fuel + 1, i =>
    let stks := filterStacks (samples i) curID opts
    if stks.isEmpty then (some .ok, [.fullSample i])
    else if opts.retry i then
      let r := findIter opts curID samples fuel (i + 1)
      (r.1, .fullSample i :: .retryConsult i :: r.2)
    else (some (.leak stks), [.fullSample i, .retryConsult i])

/-- Source `Find`: sample the caller's own stack for its id, build the
options, reject a configured cleanup callback before anything else,
then run the retry loop. -/
def FindModel (opts : GoOpts) (curID : Int) (samples : Nat → List Stack) (fuel : Nat) :
    Option FindRes × List FindEvent :=
  if opts.cleanup then (some .configErr, [.currentSample])
  else
    let r := findIter opts curID samples fuel 0
    (r.1, .currentSample :: r.2)

/-- Source `FindAndPrettyPrint`: identical control flow to `Find` up to
and including the retry loop; on leak it additionally renders the
dependency graph and the per-stack pretty blocks.  The report text is
not needed by the claims about this function; the leak outcome carries
the surviving stacks. -/
def FindAndPrettyPrintModel (opts : GoOpts) (curID : Int) (samples : Nat → List Stack)
    (fuel : Nat) : Option FindRes × List FindEvent :=
  if opts.cleanup then (some .configErr, [.currentSample])
  else
    let r := findIter opts curID samples fuel 0
    (r.1, .currentSample :: r.2)

/-! ### Step lemmas for the parsing loop -/

theorem parseLoop_nil : parseLoop [] = ([], []) := by simp [parseLoop]

theorem parseLoop_cons_ok (l : List Char) (ls : List (List Char)) (st : Stack)
    (rem : List (List Char)) (hp : gorHdr.isPrefixOf l = true)
    (h : parseStack l ls = (.ok st, rem)) :
    parseLoop (l :: ls) = (st :: (parseLoop rem).1, (parseLoop rem).2) := by
  rw [parseLoop]
  simp only [hp, if_true]
  split
  · rename_i st' rem' h'
    rw [h] at h'
    injection h' with h1 h2
    injection h1 with h3
    subst h3 h2
    rfl
  · rename_i e' rem' h'
    rw [h] at h'
    exact absurd h' (by simp)

theorem parseLoop_cons_err (l : List Char) (ls : List (List Char)) (e : PErr)
    (rem : List (List Char)) (hp : gorHdr.isPrefixOf l = true)
    (h : parseStack l ls = (.error e, rem)) :
    parseLoop (l :: ls) = ((parseLoop rem).1, e :: (parseLoop rem).2) := by
  rw [parseLoop]
  simp only [hp, if_true]
  split
  · rename_i st' rem' h'
    rw [h] at h'
    exact absurd h' (by simp)
  · rename_i e' rem' h'
    rw [h] at h'
    injection h' with h1 h2
    injection h1 with h3
    subst h3 h2
    rfl

theorem parseLoop_cons_skip (l : List Char) (ls : List (List Char))
    (hp : gorHdr.isPrefixOf l = false) :
    parseLoop (l :: ls) = parseLoop ls := by
  rw [parseLoop]
  simp [hp]

/-! ### Shape lemmas for one body-loop iteration -/

theorem bodyStep_entries_shape (acc : PAcc) (l : List Char) (ls : List (List Char)) :
    ∀ r, bodyStep acc l ls = r →
      match r with
      | .cont1 a' => a'.entries = acc.entries ∧ a'.cur.IsSource = acc.cur.IsSource
      | .cont2 a' => ∃ x, a'.entries = acc.entries ++ [x]
          ∧ x.Location.head? = some '\t' ∧ x.IsSource = acc.cur.IsSource
          ∧ a'.cur.IsSource = acc.cur.IsSource
      | .stop (.ok a', _) => a'.entries = acc.entries
          ∨ ∃ x, a'.entries = acc.entries ++ [x] ∧ x.Location.head? = some '\t'
      | .stop (.error _, _) => True := by
  intro r h
  unfold bodyStep at h
  dsimp only at h
  repeat' split at h
  all_goals cases h
  all_goals simp_all

theorem bodyStep_funcs_shape (acc : PAcc) (l : List Char) (ls : List (List Char)) :
    ∀ r, bodyStep acc l ls = r →
      match r with
      | .cont1 a' => a'.funcs = acc.funcs
          ∨ ∃ nm, parseFuncName l = .ok (nm, false) ∧ a'.funcs = insertSet acc.funcs nm
      | .cont2 a' => a'.funcs = acc.funcs
          ∨ ∃ nm, parseFuncName l = .ok (nm, false) ∧ a'.funcs = insertSet acc.funcs nm
      | .stop (.ok a', _) => a'.funcs = acc.funcs
          ∨ ∃ nm, parseFuncName l = .ok (nm, false) ∧ a'.funcs = insertSet acc.funcs nm
      | .stop (.error _, _) => True := by
  intro r h
  unfold bodyStep at h
  dsimp only at h
  repeat' split at h
  all_goals cases h
  all_goals simp_all

theorem bodyStep_fullStack_shape (acc : PAcc) (l : List Char) (ls : List (List Char)) :
    ∀ r, bodyStep acc l ls = r →
      match r with
      | .cont1 a' => a'.fullStack = acc.fullStack ++ l ++ ['\n']
      | .cont2 a' => ∃ loc ls2, ls = loc :: ls2
          ∧ a'.fullStack = acc.fullStack ++ l ++ ['\n'] ++ loc ++ ['\n']
      | .stop (.ok a', rem) =>
          (a'.fullStack = acc.fullStack ∧ rem = l :: ls)
          ∨ (a'.fullStack = acc.fullStack ++ l ++ ['\n'] ∧ (rem = ls ∨ (rem = [] ∧ ls = [])))
          ∨ (∃ loc ls2, ls = loc :: ls2 ∧ rem = ls2
              ∧ a'.fullStack = acc.fullStack ++ l ++ ['\n'] ++ loc ++ ['\n'])
      | .stop (.error _, rem) => rem = ls := by
  intro r h
  unfold bodyStep at h
  dsimp only at h
  repeat' split at h
  all_goals cases h
  all_goals simp_all
  all_goals exact ⟨_, _, ⟨rfl, rfl⟩, rfl, rfl⟩

/-! ### Loop invariants of the stack body parser -/

theorem parseBody_entries_inv_aux :
    ∀ (n : Nat) (ls : List (List Char)), ls.length ≤ n →
      ∀ acc accF rem, parseBody acc ls = (.ok accF, rem) →
        acc.cur.IsSource = false →
        (∀ e ∈ acc.entries, e.IsSource = false) →
        (∀ e ∈ acc.entries, e.Location.head? = some '\t') →
        (∀ e ∈ accF.entries.dropLast, e.IsSource = false)
        ∧ (∀ e ∈ accF.entries, e.Location.head? = some '\t') := by
  intro n
  induction n with
  | zero =>
    intro ls h acc accF rem hpb h1 h2 h3
    have : ls = [] := List.length_eq_zero.mp (Nat.le_zero.mp h)
    subst this
    simp only [parseBody] at hpb
    injection hpb with hl hr
    injection hl with hacc
    subst hacc
    exact ⟨fun e he => h2 e (List.dropLast_subset _ he), h3⟩
  | succ n ih =>
    intro ls h acc accF rem hpb h1 h2 h3
    match ls with
    | [] =>
      simp only [parseBody] at hpb
      injection hpb with hl hr
      injection hl with hacc
      subst hacc
      exact ⟨fun e he => h2 e (List.dropLast_subset _ he), h3⟩
    | l :: ls' =>
      have hls' : ls'.length ≤ n := by simp at h; omega
      simp only [parseBody] at hpb
      have hshape := bodyStep_entries_shape acc l ls' _ rfl
      cases hstep : bodyStep acc l ls' with
      | stop r =>
        rw [hstep] at hpb hshape
        match r, hpb with
        | (.ok a', rem'), hpb =>
          injection hpb with hl hr
          injection hl with hacc
          subst hacc
          subst hr
          rcases hshape with heq | ⟨x, heq, htab⟩
          · rw [heq]
            exact ⟨fun e he => h2 e (List.dropLast_subset _ he), h3⟩
          · rw [heq]
            constructor
            · intro e he
              rw [List.dropLast_concat] at he
              exact h2 e he
            · intro e he
              rcases List.mem_append.mp he with he | he
              · exact h3 e he
              · simp at he; subst he; exact htab
      | cont1 a' =>
        rw [hstep] at hpb hshape
        obtain ⟨hent, hcur⟩ := hshape
        exact ih ls' hls' a' accF rem hpb (hcur.trans h1)
          (by rw [hent]; exact h2) (by rw [hent]; exact h3)
      | cont2 a' =>
        rw [hstep] at hpb hshape
        obtain ⟨x, hent, htab, hsrc, hcur⟩ := hshape
        have h2' : ∀ e ∈ a'.entries, e.IsSource = false := by
          rw [hent]
          intro e he
          rcases List.mem_append.mp he with he | he
          · exact h2 e he
          · simp at he; subst he; exact hsrc.trans h1
        have h3' : ∀ e ∈ a'.entries, e.Location.head? = some '\t' := by
          rw [hent]
          intro e he
          rcases List.mem_append.mp he with he | he
          · exact h3 e he
          · simp at he; subst he; exact htab
        match ls', hpb, hls' with
        | [], hpb, _ =>
          injection hpb with hl hr
          injection hl with hacc
          subst hacc
          exact ⟨fun e he => h2' e (List.dropLast_subset _ he), h3'⟩
        | y :: ls2, hpb, hls' =>
          have hls2 : ls2.length ≤ n := by simp at hls'; omega
          exact ih ls2 hls2 a' accF rem hpb (hcur.trans h1) h2' h3'

theorem parseBody_entries_inv (ls : List (List Char)) (accF : PAcc)
    (rem : List (List Char)) (hpb : parseBody pacc0 ls = (.ok accF, rem)) :
    (∀ e ∈ accF.entries.dropLast, e.IsSource = false)
    ∧ (∀ e ∈ accF.entries, e.Location.head? = some '\t') := by
  refine parseBody_entries_inv_aux ls.length ls le_rfl pacc0 accF rem hpb rfl ?_ ?_ <;>
    simp [pacc0]

theorem mem_insertSet (s : List (List Char)) (x f : List Char)
    (h : f ∈ insertSet s x) : f ∈ s ∨ f = x := by
  unfold insertSet at h
  split at h
  · exact Or.inl h
  · rcases List.mem_append.mp h with h | h
    · exact Or.inl h
    · simp at h; exact Or.inr h

theorem parseBody_funcs_inv_aux :
    ∀ (n : Nat) (ls : List (List Char)), ls.length ≤ n →
      ∀ acc accF rem, parseBody acc ls = (.ok accF, rem) →
        ∀ f ∈ accF.funcs,
          f ∈ acc.funcs ∨ ∃ lin ∈ ls, parseFuncName lin = .ok (f, false) := by
  intro n
  induction n with
  | zero =>
    intro ls h acc accF rem hpb f hf
    have : ls = [] := List.length_eq_zero.mp (Nat.le_zero.mp h)
    subst this
    simp only [parseBody] at hpb
    injection hpb with hl hr
    injection hl with hacc
    subst hacc
    exact Or.inl hf
  | succ n ih =>
    intro ls h acc accF rem hpb f hf
    match ls with
    | [] =>
      simp only [parseBody] at hpb
      injection hpb with hl hr
      injection hl with hacc
      subst hacc
      exact Or.inl hf
    | l :: ls' =>
      have hls' : ls'.length ≤ n := by simp at h; omega
      simp only [parseBody] at hpb
      have hshape := bodyStep_funcs_shape acc l ls' _ rfl
      have resolve : ∀ (a' : PAcc),
          (a'.funcs = acc.funcs
            ∨ ∃ nm, parseFuncName l = .ok (nm, false) ∧ a'.funcs = insertSet acc.funcs nm) →
          f ∈ a'.funcs →
          f ∈ acc.funcs ∨ ∃ lin ∈ l :: ls', parseFuncName lin = .ok (f, false) := by
        intro a' hsh hfa
        rcases hsh with heq | ⟨nm, hok, heq⟩
        · rw [heq] at hfa; exact Or.inl hfa
        · rw [heq] at hfa
          rcases mem_insertSet _ _ _ hfa with hfa | rfl
          · exact Or.inl hfa
          · exact Or.inr ⟨l, by simp, hok⟩
      cases hstep : bodyStep acc l ls' with
      | stop r =>
        rw [hstep] at hpb hshape
        match r, hpb, hshape with
        | (.ok a', rem'), hpb, hshape =>
          injection hpb with hl hr
          injection hl with hacc
          subst hacc
          exact resolve _ hshape hf
      | cont1 a' =>
        rw [hstep] at hpb hshape
        rcases ih ls' hls' a' accF rem hpb f hf with hfa | ⟨lin, hmem, hok⟩
        · exact resolve a' hshape hfa
        · exact Or.inr ⟨lin, by simp [hmem], hok⟩
      | cont2 a' =>
        rw [hstep] at hpb hshape
        match ls', hpb, hls' with
        | [], hpb, _ =>
          injection hpb with hl hr
          injection hl with hacc
          subst hacc
          exact resolve _ hshape hf
        | y :: ls2, hpb, hls' =>
          have hls2 : ls2.length ≤ n := by simp at hls'; omega
          rcases ih ls2 hls2 a' accF rem hpb f hf with hfa | ⟨lin, hmem, hok⟩
          · exact resolve a' hshape hfa
          · exact Or.inr ⟨lin, by simp [hmem], hok⟩

/-- Concatenation of consumed lines, each with the line terminator the
parser writes after it. -/
def linesJoin : List (List Char) → List Char
  | [] => []
  | a :: t => a ++ '\n' :: linesJoin t

theorem parseBody_fullStack_inv_aux :
    ∀ (n : Nat) (ls : List (List Char)), ls.length ≤ n →
      ∀ acc accF rem, parseBody acc ls = (.ok accF, rem) →
        ∃ pre, ls = pre ++ rem ∧ accF.fullStack = acc.fullStack ++ linesJoin pre := by
  intro n
  induction n with
  | zero =>
    intro ls h acc accF rem hpb
    have : ls = [] := List.length_eq_zero.mp (Nat.le_zero.mp h)
    subst this
    simp only [parseBody] at hpb
    injection hpb with hl hr
    injection hl with hacc
    subst hacc
    subst hr
    exact ⟨[], by simp [linesJoin]⟩
  | succ n ih =>
    intro ls h acc accF rem hpb
    match ls with
    | [] =>
      simp only [parseBody] at hpb
      injection hpb with hl hr
      injection hl with hacc
      subst hacc
      subst hr
      exact ⟨[], by simp [linesJoin]⟩
    | l :: ls' =>
      have hls' : ls'.length ≤ n := by simp at h; omega
      simp only [parseBody] at hpb
      have hshape := bodyStep_fullStack_shape acc l ls' _ rfl
      cases hstep : bodyStep acc l ls' with
      | stop r =>
        rw [hstep] at hpb hshape
        match r, hpb, hshape with
        | (.ok a', rem'), hpb, hshape =>
          injection hpb with hl hr
          injection hl with hacc
          subst hacc
          subst hr
          rcases hshape with ⟨hfs, hrem⟩ | ⟨hfs, hrem | ⟨hrem, hls⟩⟩ | ⟨loc, ls2, hls, hrem, hfs⟩
          · exact ⟨[], by simp [linesJoin, hrem, hfs]⟩
          · subst hrem
            exact ⟨[l], by simp [linesJoin, hfs]⟩
          · subst hls; subst hrem
            exact ⟨[l], by simp [linesJoin, hfs]⟩
          · subst hls; subst hrem
            exact ⟨[l, loc], by simp [linesJoin, hfs]⟩
      | cont1 a' =>
        rw [hstep] at hpb hshape
        obtain ⟨pre, hpre, hfs⟩ := ih ls' hls' a' accF rem hpb
        refine ⟨l :: pre, by simp [hpre], ?_⟩
        rw [hfs, hshape]
        simp [linesJoin]
      | cont2 a' =>
        rw [hstep] at hpb hshape
        obtain ⟨loc, ls2, hls, hfs⟩ := hshape
        subst hls
        match hpb with
        | hpb =>
          have hls2 : ls2.length ≤ n := by simp at hls'; omega
          obtain ⟨pre, hpre, hfs'⟩ := ih ls2 hls2 a' accF rem hpb
          refine ⟨l :: loc :: pre, by simp [hpre], ?_⟩
          rw [hfs', hfs]
          simp [linesJoin]

/-! ### Claim theorems -/

/-- C7: for a header line `"<taskword> <id> [<state>]"`, a trailing
colon alone, a trailing newline alone, and neither are all stripped,
yielding the numeric id and the bare state; but when both are present
(a line ending `":\n"`), the code trims the colon before the newline,
so the colon survives inside the returned state, which keeps its
closing bracket and colon instead of being bare. -/
theorem parseGoStackHeader_colon_newline :
    parseGoStackHeader (str "goroutine 1 [running]") = .ok (1, str "running")
    ∧ parseGoStackHeader (str "goroutine 1 [running]:") = .ok (1, str "running")
    ∧ parseGoStackHeader (str "goroutine 1 [running]\n") = .ok (1, str "running")
    ∧ parseGoStackHeader (str "goroutine 1 [running]:\n") = .ok (1, str "running]:")
    ∧ str "running]:" ≠ str "running" := by
  refine ⟨by rfl, by rfl, by rfl, by rfl, by decide⟩

/-- The stack the parser produces from a dump whose creator line has no
`" in goroutine G"` suffix: its single entry is a source entry whose
call text contains no `goroutine <digits>` token. -/
def noTokenStack : Stack :=
  ((parseStack (str "goroutine 8 [running]:")
    [str "created by main.foo", str "\t/x.go:1 +0x1"]).1.toOption).getD emptyStack

/-- The stack parsed from a well-formed creator line, used to witness
the safety direction. -/
def withTokenStack : Stack :=
  ((parseStack (str "goroutine 3 [running]:")
    [str "created by main.spawn in goroutine 1", str "\t/a/b.go:20 +0x2"]).1.toOption).getD
    emptyStack

/-- C10: on a stack whose source entry's call text has no
`goroutine <digits>` token, `PrettyPrint` indexes the regexp submatch
result out of range (the `none` of the model) instead of returning a
formatted string; and whenever every source entry's call text contains
such a token, `PrettyPrint` returns a formatted string. -/
theorem prettyPrint_source_token_safety :
    (noTokenStack.entries.any (fun e => e.IsSource) = true
      ∧ PrettyPrint noTokenStack [] = none)
    ∧ ∀ (s : Stack) (filters : List (Stack → Bool)),
        (∀ e ∈ s.entries, e.IsSource = true → (findGorStr e.FunctionCall).isSome = true) →
        (PrettyPrint s filters).isSome = true := by
  refine ⟨⟨by rfl, by rfl⟩, ?_⟩
  intro s filters h
  unfold PrettyPrint
  cases hf : s.entries.find? (fun e => e.IsSource) with
  | none => simp
  | some e =>
    have hsrc : e.IsSource = true := by
      have := List.find?_some hf
      simpa using this
    have hmem : e ∈ s.entries := List.mem_of_find?_eq_some hf
    have hsome := h e hmem hsrc
    obtain ⟨ds, hds⟩ := Option.isSome_iff_exists.mp hsome
    simp [hds]

/-- Witness for the safety direction of the C10 theorem at a concrete
parsed stack. -/
theorem prettyPrint_source_token_safety_witness :
    (PrettyPrint withTokenStack []).isSome = true :=
  prettyPrint_source_token_safety.2 withTokenStack [] (by decide)

/-- C8: with a cleanup callback configured, both `Find` and
`FindAndPrettyPrint` return the configuration error with an event
trace containing only the own-stack sample of `stack.Current()`: no
full live-set sample is taken and the retry policy is never consulted,
for any sampling oracle and any retry budget. -/
theorem find_cleanup_config_error (opts : GoOpts) (curID curID2 : Int)
    (samples samples2 : Nat → List Stack) (fuel fuel2 : Nat)
    (h : opts.cleanup = true) :
    FindModel opts curID samples fuel = (some .configErr, [.currentSample])
    ∧ FindAndPrettyPrintModel opts curID2 samples2 fuel2
        = (some .configErr, [.currentSample]) := by
  constructor <;> simp [FindModel, FindAndPrettyPrintModel, h]

/-- Witness for C8 at a concrete cleanup-configured option value. -/
theorem find_cleanup_config_error_witness :
    FindModel ⟨true, fun _ => true, fun _ => false⟩ 1 (fun _ => []) 5
      = (some .configErr, [.currentSample])
    ∧ FindAndPrettyPrintModel ⟨true, fun _ => true, fun _ => false⟩ 1 (fun _ => []) 5
      = (some .configErr, [.currentSample]) :=
  find_cleanup_config_error ⟨true, fun _ => true, fun _ => false⟩ 1 1
    (fun _ => []) (fun _ => []) 5 5 rfl

/-- A dump whose creator frame's function name coincides with an
ordinary frame's name (`foo`). -/
def aliasHdr : List Char := str "goroutine 1 [running]:"

/-- Body lines of the aliasing dump. -/
def aliasLines : List (List Char) :=
  [str "foo()", str "\t/a.go:1 +0x1", str "created by foo in goroutine 2", str "\t/b.go:2 +0x2"]

/-- The stack parsed from the aliasing dump. -/
def aliasStack : Stack :=
  ((parseStack aliasHdr aliasLines).1.toOption).getD emptyStack

/-- C5 counterexample: the parsed aliasing stack's last entry is its
single source entry and its parsed function name is `foo`, yet `foo`
is in `allFunctions` (contributed by the ordinary `foo()` frame), so
`allFunctions` does contain a creator frame's function name. -/
theorem allFunctions_creator_alias_counterexample :
    aliasStack.allFunctions = [str "foo"]
    ∧ aliasStack.entries.map Entry.IsSource = [false, true]
    ∧ parseFuncName ((aliasStack.entries.getD 1 ⟨[], [], false⟩).FunctionCall)
        = .ok (str "foo", true)
    ∧ str "foo" ∈ aliasStack.allFunctions :=
  ⟨rfl, rfl, rfl, by decide⟩

/-- C5 (amended): in every successfully parsed stack every entry but
the last is a non-source entry (hence at most one source entry, in
last position), and every name in `allFunctions` was parsed from a
consumed non-creator call line — creator lines never contribute their
name (though an ordinary frame may contribute an equal name). -/
theorem parseStack_source_last_and_funcs (hdr : List Char) (ls : List (List Char))
    (st : Stack) (rem : List (List Char)) (h : parseStack hdr ls = (.ok st, rem)) :
    (∀ e ∈ st.entries.dropLast, e.IsSource = false)
    ∧ (∀ f ∈ st.allFunctions, ∃ lin ∈ ls, parseFuncName lin = .ok (f, false)) := by
  unfold parseStack at h
  split at h
  · exact absurd h (by simp)
  · split at h
    · exact absurd h (by simp)
    · rename_i id state hhdr accF rem' hbody
      injection h with hl hr
      injection hl with hst
      subst hst
      subst hr
      constructor
      · exact fun e he => (parseBody_entries_inv ls accF rem' hbody).1 e he
      · exact fun f hf => parseBody_funcs_inv_aux ls.length ls le_rfl pacc0 accF rem' hbody f hf
          |>.resolve_left (by simp [pacc0])

/-- Witness for the amended C5 theorem at the aliasing dump. -/
theorem parseStack_source_last_and_funcs_witness :
    (∀ e ∈ ((parseStack aliasHdr aliasLines).1.toOption.getD emptyStack).entries.dropLast,
        e.IsSource = false)
    ∧ (∀ f ∈ ((parseStack aliasHdr aliasLines).1.toOption.getD emptyStack).allFunctions,
        ∃ lin ∈ aliasLines, parseFuncName lin = .ok (f, false)) :=
  parseStack_source_last_and_funcs aliasHdr aliasLines _ [] rfl

/-- A minimal well-formed single-frame dump. -/
def simpleHdr : List Char := str "goroutine 1 [running]:"

/-- Body lines of the single-frame dump. -/
def simpleLines : List (List Char) := [str "main.foo()", str "\t/a/b.go:10 +0x1"]

/-- The stack parsed from the single-frame dump. -/
def simpleStack : Stack :=
  ((parseStack simpleHdr simpleLines).1.toOption).getD emptyStack

/-- C4 counterexample: the parser consumed the header line
`"goroutine 1 [running]:"` for this stack, but `fullStack` holds only
the body and location lines — no byte of the header appears in it, so
not every consumed byte is in the stack's full text. -/
theorem fullText_header_missing_counterexample :
    simpleStack.fullStack = str "main.foo()\n\t/a/b.go:10 +0x1\n"
    ∧ ¬ (str "goroutine" <:+: simpleStack.fullStack) :=
  ⟨rfl, by decide⟩

/-- C4 (amended): for every successfully parsed stack, the consumed
body lines (the lines between the header and the remainder handed
back, in their original order) are exactly reproduced in `fullStack`,
each followed by a line terminator; the consumed header line is not
part of `fullStack`. -/
theorem parseStack_fullText_round_trip (hdr : List Char) (ls : List (List Char))
    (st : Stack) (rem : List (List Char)) (h : parseStack hdr ls = (.ok st, rem)) :
    ∃ pre, ls = pre ++ rem ∧ st.fullStack = linesJoin pre := by
  unfold parseStack at h
  split at h
  · exact absurd h (by simp)
  · split at h
    · exact absurd h (by simp)
    · rename_i id state hhdr accF rem' hbody
      injection h with hl hr
      injection hl with hst
      subst hst
      subst hr
      obtain ⟨pre, hpre, hfs⟩ :=
        parseBody_fullStack_inv_aux ls.length ls le_rfl pacc0 accF rem' hbody
      exact ⟨pre, hpre, by simpa [pacc0] using hfs⟩

/-- Witness for the amended C4 theorem at the single-frame dump. -/
theorem parseStack_fullText_round_trip_witness :
    ∃ pre, simpleLines = pre ++ []
      ∧ ((parseStack simpleHdr simpleLines).1.toOption.getD emptyStack).fullStack
          = linesJoin pre :=
  parseStack_fullText_round_trip simpleHdr simpleLines _ [] rfl

/-- A dump whose single call line is followed by the next goroutine
header instead of a tab-led location line. -/
def pushbackDump : List (List Char) :=
  [str "goroutine 1 [running]:", str "main.foo()", str "goroutine 2 [running]:"]

/-- The first stack of the pushback dump: the call line contributed its
function name to `firstFunction` and `allFunctions`, but no entry was
recorded for it. -/
def pbStack1 : Stack :=
  ⟨1, str "running", str "main.foo", [str "main.foo"], str "main.foo()" ++ ['\n'], []⟩

/-- The second stack of the pushback dump, parsed from the pushed-back
header line. -/
def pbStack2 : Stack := ⟨2, str "running", [], [], [], []⟩

/-- C9: an `Entry` is recorded only when the line after the call line
starts with a tab — every recorded entry's location starts with a tab;
and on the pushback dump the call line `main.foo()` (followed by a
header, not a tab line) yields a stack with no entries even though its
name is `firstFunction` and is in `allFunctions`, while the pushed-back
line is reinterpreted as the next stack's header. -/
theorem entries_only_with_tab_location :
    (∀ (hdr : List Char) (ls : List (List Char)) (st : Stack) (rem : List (List Char)),
        parseStack hdr ls = (.ok st, rem) →
        ∀ e ∈ st.entries, e.Location.head? = some '\t')
    ∧ parseLoop pushbackDump = ([pbStack1, pbStack2], [])
    ∧ pbStack1.entries = [] ∧ pbStack1.firstFunction = str "main.foo"
    ∧ str "main.foo" ∈ pbStack1.allFunctions := by
  refine ⟨?_, ?_, rfl, rfl, by decide⟩
  · intro hdr ls st rem h
    unfold parseStack at h
    split at h
    · exact absurd h (by simp)
    · split at h
      · exact absurd h (by simp)
      · rename_i id state hhdr accF rem' hbody
        injection h with hl hr
        injection hl with hst
        subst hst
        exact fun e he => (parseBody_entries_inv ls accF rem' hbody).2 e he
  · have e1 : parseStack (str "goroutine 1 [running]:")
        [str "main.foo()", str "goroutine 2 [running]:"]
        = (.ok pbStack1, [str "goroutine 2 [running]:"]) := by rfl
    have e2 : parseStack (str "goroutine 2 [running]:") ([] : List (List Char))
        = (.ok pbStack2, []) := by rfl
    rw [show pushbackDump = (str "goroutine 1 [running]:")
      :: [str "main.foo()", str "goroutine 2 [running]:"] from rfl]
    rw [parseLoop_cons_ok _ _ _ _ (by decide) e1]
    rw [parseLoop_cons_ok _ _ _ _ (by decide) e2]
    rw [parseLoop_nil]

/-- Witness for the universally quantified part of the C9 theorem. -/
theorem entries_only_with_tab_location_witness :
    ∀ e ∈ ((parseStack simpleHdr simpleLines).1.toOption.getD emptyStack).entries,
      e.Location.head? = some '\t' :=
  entries_only_with_tab_location.1 simpleHdr simpleLines _ [] rfl

/-! ### Lemmas for lines with a symbolic goroutine id -/

theorem isPrefixOf_cons_cons (a b : Char) (as bs : List Char) :
    ((a :: as).isPrefixOf (b :: bs)) = ((a == b) && as.isPrefixOf bs) := rfl

theorem cutPre_append (p r : List Char) : cutPre p (p ++ r) = some r := by
  simp [cutPre, isPrefixOf_append_self, List.drop_left]

theorem strIdx_append_shift (needle a b : List Char) (hne : needle ≠ [])
    (h : ∀ c ∈ a, needle.headD ' ' ≠ c) :
    strIdx needle (a ++ b) = (strIdx needle b).map (· + a.length) := by
  induction a with
  | nil =>
    cases hb : strIdx needle b <;> simp [hb]
  | cons c a' ih =>
    have hc : needle.headD ' ' ≠ c := h c (by simp)
    have ih' := ih (fun x hx => h x (by simp [hx]))
    match needle, hne with
    | nh :: nt, _ =>
      have hpre : ((nh :: nt).isPrefixOf (c :: (a' ++ b))) = false := by
        rw [isPrefixOf_cons_cons]
        simp only [List.headD_cons] at hc
        have : (nh == c) = false := by
          cases hg : nh == c
          · rfl
          · exact absurd (beq_iff_eq.mp hg) hc
        simp [this]
      rw [List.cons_append, strIdx]
      simp only [hpre, Bool.false_eq_true, if_false]
      rw [ih']
      cases strIdx (nh :: nt) b <;> simp <;> omega

theorem strIdx_self (needle rest : List Char) (hne : needle ≠ []) :
    strIdx needle (needle ++ rest) = some 0 := by
  match needle, hne with
  | nh :: nt, _ =>
    rw [List.cons_append, strIdx, isPrefixOf_cons_cons]
    have : (nt.isPrefixOf (nt ++ rest)) = true := isPrefixOf_append_self nt rest
    simp [this]

theorem findGorStr_skip (a b : List Char) (h : ∀ c ∈ a, c ≠ 'g') :
    findGorStr (a ++ b) = findGorStr b := by
  induction a with
  | nil => simp
  | cons c a' ih =>
    have hc : c ≠ 'g' := h c (by simp)
    have ih' := ih (fun x hx => h x (by simp [hx]))
    have hpre : (gorTok.isPrefixOf (c :: (a' ++ b))) = false := by
      rw [show gorTok = 'g' :: str "oroutine " from rfl, isPrefixOf_cons_cons]
      have : ('g' == c) = false := by
        cases hg : 'g' == c
        · rfl
        · exact absurd (beq_iff_eq.mp hg).symm hc
      simp [this]
    rw [List.cons_append, findGorStr, hpre]
    simpa using ih'

theorem takeWhile_of_all (p : Char → Bool) (l : List Char) (h : ∀ c ∈ l, p c = true) :
    l.takeWhile p = l := by
  induction l with
  | nil => rfl
  | cons c t ih =>
    rw [List.takeWhile_cons, h c (by simp)]
    simp [ih (fun x hx => h x (by simp [hx]))]

theorem findGorStr_tok (b : List Char) (hd : ((b.headD ' ').isDigit) = true) :
    findGorStr (gorTok ++ b) = some (b.takeWhile Char.isDigit) := by
  have hcons : gorTok ++ b = 'g' :: (str "oroutine " ++ b) := rfl
  rw [hcons, findGorStr]
  have hpre : (gorTok.isPrefixOf ('g' :: (str "oroutine " ++ b))) = true := by
    rw [← hcons]; exact isPrefixOf_append_self gorTok b
  have hdrop : (('g' :: (str "oroutine " ++ b)).drop 10) = b := by
    rw [← hcons, show (10 : Nat) = gorTok.length from rfl]
    exact List.drop_left gorTok b
  rw [hpre, hdrop, hd]
  simp

theorem trimPre_append (p r : List Char) : trimPre p (p ++ r) = r := by
  simp [trimPre, isPrefixOf_append_self, List.drop_left]

theorem natDigits_head_digit (n : Nat) : (((natDigits n).headD ' ').isDigit) = true := by
  match hd : natDigits n with
  | [] => exact absurd hd (natDigits_ne_nil n)
  | c :: rest =>
    have : c ∈ natDigits n := by rw [hd]; simp
    simpa using natDigits_all_digits n c this

theorem natDigits_ne_g (n : Nat) : ∀ c ∈ natDigits n, c ≠ 'g' := by
  intro c hc he
  have := natDigits_all_digits n c hc
  subst he
  simp [Char.isDigit] at this

theorem takeWhile_natDigits (n : Nat) :
    (natDigits n).takeWhile Char.isDigit = natDigits n :=
  takeWhile_of_all _ _ (natDigits_all_digits n)

/-- The body loop on a creator call line followed by a tab-led location
line: the entry is recorded with its source mark, the two lines join
`fullStack`, and the loop stops, leaving the rest unread. -/
theorem parseBody_creator_tab (acc : PAcc) (cl loc : List Char) (rest : List (List Char))
    (nm : List Char)
    (hhdr : (gorHdr.isPrefixOf cl) = false)
    (hne : cl ≠ [])
    (hel : ((str "...").isPrefixOf cl && (str " frames elided...").isSuffixOf cl) = false)
    (hfn : parseFuncName cl = .ok (nm, true))
    (htab : loc.head? = some '\t') :
    parseBody acc (cl :: loc :: rest)
      = (.ok { firstFunction := acc.firstFunction, funcs := acc.funcs,
               fullStack := acc.fullStack ++ cl ++ '\n' :: (loc ++ ['\n']),
               entries := acc.entries ++ [⟨cl, loc, true⟩],
               cur := ⟨cl, loc, true⟩ }, rest) := by
  simp only [parseBody, bodyStep, hhdr, hne, hel, hfn, htab, Bool.false_eq_true, if_false,
    if_true, ite_false, ite_true]
  simp [hne]

/-- Header line of the creator-line dump family. -/
def c3Hdr : List Char := str "goroutine 3 [running]:"

/-- The creator line `created by main.spawn in goroutine G`. -/
def c3Creator (G : Nat) : List Char :=
  str "created by main.spawn in goroutine " ++ natDigits G

/-- The location line following the creator line. -/
def c3Loc : List Char := str "\t/a/b.go:20 +0x2"

/-- The stack parsed from the creator-line dump. -/
def c3Stack (G : Nat) : Stack :=
  ((parseStack c3Hdr [c3Creator G, c3Loc]).1.toOption).getD emptyStack

theorem c3_parseFuncName (G : Nat) :
    parseFuncName (c3Creator G) = .ok (str "main.spawn", true) := by
  have hsplit : c3Creator G
      = str "created by " ++ (str "main.spawn in goroutine " ++ natDigits G) := by
    rw [c3Creator,
      show str "created by main.spawn in goroutine "
        = str "created by " ++ str "main.spawn in goroutine " from rfl,
      List.append_assoc]
  have hafter : str "main.spawn in goroutine " ++ natDigits G
      = str "main.spawn" ++ (str " in goroutine" ++ (' ' :: natDigits G)) := by
    rw [show str "main.spawn in goroutine "
        = str "main.spawn" ++ (str " in goroutine" ++ [' ']) from rfl]
    simp
  have hidx : strIdx (str " in goroutine") (str "main.spawn in goroutine " ++ natDigits G)
      = some 10 := by
    rw [hafter, strIdx_append_shift _ _ _ (by decide) (by decide),
      strIdx_self _ _ (by decide)]
    rfl
  have htake : (str "main.spawn in goroutine " ++ natDigits G).take 10 = str "main.spawn" := by
    rw [hafter, show (10 : Nat) = (str "main.spawn").length from rfl, List.take_left]
  rw [parseFuncName, hsplit, cutPre_append]
  simp only [hidx, htake]
  rw [← hsplit]
  have hnm : str "main.spawn" ≠ [] := by decide
  simp [hnm]

theorem c3_findGorStr (G : Nat) : findGorStr (c3Creator G) = some (natDigits G) := by
  have hsplit : c3Creator G
      = str "created by main.spawn in " ++ (gorTok ++ natDigits G) := by
    rw [c3Creator,
      show str "created by main.spawn in goroutine "
        = str "created by main.spawn in " ++ gorTok from rfl,
      List.append_assoc]
  rw [hsplit, findGorStr_skip _ _ (by decide),
    findGorStr_tok _ (natDigits_head_digit G), takeWhile_natDigits]

/-- C3 counterexample: on the dump with creator line
`created by main.spawn in goroutine 1`, the derived source id is 1 as
claimed, but the creator entry's call text with the `"created by "`
prefix stripped is `"main.spawn in goroutine 1"`, not the function
name `main.spawn` — the `" in goroutine G"` suffix is not removed by
the prefix strip. -/
theorem creator_strip_counterexample :
    SourceGoroutineID (c3Stack 1) = 1
    ∧ trimPre (str "created by ") (SourceEntry (c3Stack 1)).FunctionCall
        = str "main.spawn in goroutine 1"
    ∧ trimPre (str "created by ") (SourceEntry (c3Stack 1)).FunctionCall
        ≠ str "main.spawn" :=
  ⟨by rfl, by rfl, by decide⟩

/-- C3 (amended): for the dump with creator line
`created by main.spawn in goroutine G` and its tab-led location line,
for every goroutine id G: the stack parses to a single source entry
holding the whole creator line; the derived source-task id equals G;
the call text with the `"created by "` prefix stripped equals
`"main.spawn in goroutine G"` (prefix-stripping keeps the goroutine
suffix); and the parsed creator function name — prefix and
`" in goroutine"` suffix both removed — equals `main.spawn`. -/
theorem creator_line_source_id (G : Nat) :
    parseStack c3Hdr [c3Creator G, c3Loc]
      = (.ok ⟨3, str "running", [], [],
          c3Creator G ++ '\n' :: (c3Loc ++ ['\n']), [⟨c3Creator G, c3Loc, true⟩]⟩, [])
    ∧ SourceGoroutineID (c3Stack G) = (G : Int)
    ∧ trimPre (str "created by ") (SourceEntry (c3Stack G)).FunctionCall
        = str "main.spawn in goroutine " ++ natDigits G
    ∧ parseFuncName (c3Creator G) = .ok (str "main.spawn", true) := by
  have hhdr : (gorHdr.isPrefixOf (c3Creator G)) = false := by
    rw [show c3Creator G = 'c' :: (str "reated by main.spawn in goroutine " ++ natDigits G) by
        rw [c3Creator]; rfl,
      show gorHdr = 'g' :: str "oroutine " from rfl, isPrefixOf_cons_cons]
    rfl
  have hne : c3Creator G ≠ [] := by
    rw [show c3Creator G = 'c' :: (str "reated by main.spawn in goroutine " ++ natDigits G) by
        rw [c3Creator]; rfl]
    simp
  have hel : ((str "...").isPrefixOf (c3Creator G)
      && (str " frames elided...").isSuffixOf (c3Creator G)) = false := by
    rw [show c3Creator G = 'c' :: (str "reated by main.spawn in goroutine " ++ natDigits G) by
        rw [c3Creator]; rfl,
      show str "..." = '.' :: str ".." from rfl, isPrefixOf_cons_cons]
    rfl
  have hparse : parseStack c3Hdr [c3Creator G, c3Loc]
      = (.ok ⟨3, str "running", [], [],
          c3Creator G ++ '\n' :: (c3Loc ++ ['\n']), [⟨c3Creator G, c3Loc, true⟩]⟩, []) := by
    rw [parseStack, show parseGoStackHeader c3Hdr = .ok (3, str "running") from rfl]
    rw [parseBody_creator_tab pacc0 (c3Creator G) c3Loc [] (str "main.spawn")
      hhdr hne hel (c3_parseFuncName G) (by decide)]
    simp [pacc0]
  have hstack : c3Stack G
      = ⟨3, str "running", [], [],
          c3Creator G ++ '\n' :: (c3Loc ++ ['\n']), [⟨c3Creator G, c3Loc, true⟩]⟩ := by
    rw [c3Stack, hparse]
    rfl
  refine ⟨hparse, ?_, ?_, c3_parseFuncName G⟩
  · rw [SourceGoroutineID, hstack]
    simp only [sgidAux, c3_findGorStr G]
    simp [digitsVal_natDigits]
  · rw [SourceEntry, hstack]
    simp only [List.find?]
    rw [show c3Creator G
        = str "created by " ++ (str "main.spawn in goroutine " ++ natDigits G) by
      rw [c3Creator,
        show str "created by main.spawn in goroutine "
          = str "created by " ++ str "main.spawn in goroutine " from rfl,
        List.append_assoc]]
    simp [trimPre_append]

/-! ### Well-formed headers with an arbitrary goroutine id -/

/-- The header line `goroutine <k> [running]:`. -/
def gHdr (k : Nat) : List Char :=
  str "goroutine " ++ natDigits k ++ str " [running]:"

theorem natDigits_no_space (k : Nat) : ∀ c ∈ natDigits k, c ≠ ' ' :=
  fun c hc => isDigit_ne_space c (natDigits_all_digits k c hc)

theorem parseGoStackHeader_running (k : Nat) :
    parseGoStackHeader (gHdr k) = .ok ((k : Nat), str "running") := by
  have h1 : trimSuf (gHdr k) (str ":")
      = str "goroutine " ++ natDigits k ++ str " [running]" := by
    rw [gHdr, show str " [running]:" = str " [running]" ++ [':'] from rfl,
      ← List.append_assoc]
    exact trimSuf_append_singleton _ ':'
  have h2 : trimSuf (str "goroutine " ++ natDigits k ++ str " [running]") (str "\n")
      = str "goroutine " ++ natDigits k ++ str " [running]" := by
    rw [show str " [running]" = str " [running" ++ [']'] from rfl, ← List.append_assoc]
    exact trimSuf_singleton_ne _ '\n' ']' (by decide)
  have hre : str "goroutine " ++ natDigits k ++ str " [running]"
      = str "goroutine" ++ (' ' :: (natDigits k ++ (' ' :: str "[running]"))) := by
    rw [show str "goroutine " = str "goroutine" ++ [' '] from rfl,
      show str " [running]" = ' ' :: str "[running]" from rfl]
    simp
  have e3 : ∀ s, splitN 3 s
      = (match breakSp s with
         | none => [s]
         | some (a, b) => a :: splitN 2 b) := fun s => rfl
  have e2 : ∀ s, splitN 2 s
      = (match breakSp s with
         | none => [s]
         | some (a, b) => a :: splitN 1 b) := fun s => rfl
  have hsplit : splitN 3 (str "goroutine " ++ natDigits k ++ str " [running]")
      = [str "goroutine", natDigits k, str "[running]"] := by
    rw [hre, e3, breakSp_append_nosp _ _ (by decide)]
    simp only
    rw [e2, breakSp_append_nosp _ _ (natDigits_no_space k)]
    rfl
  rw [parseGoStackHeader]
  simp only [h1, h2, hsplit]
  rw [show (([str "goroutine", natDigits k, str "[running]"].getD 1 []))
      = natDigits k from rfl]
  simp only [List.length_cons, List.length_nil, if_true]
  rw [atoi_natDigits k]
  rfl

/-- A well-formed single-frame block: header with id `k`, one ordinary
call line, one tab-led location line. -/
def goodBlock (k : Nat) : List (List Char) :=
  [gHdr k, str "main.foo()", str "\t/a/b.go:10 +0x1"]

/-- The stack the parser produces from `goodBlock k`. -/
def goodStack (k : Nat) : Stack :=
  ⟨(k : Nat), str "running", str "main.foo", [str "main.foo"],
    str "main.foo()" ++ '\n' :: (str "\t/a/b.go:10 +0x1" ++ ['\n']),
    [⟨str "main.foo()", str "\t/a/b.go:10 +0x1", false⟩]⟩

theorem gHdr_isPrefix (k : Nat) : gorHdr.isPrefixOf (gHdr k) = true := by
  rw [gHdr, show str "goroutine " = gorHdr from rfl, List.append_assoc]
  exact isPrefixOf_append_self _ _

theorem parseStack_good_block (k : Nat) (rest : List (List Char))
    (hrest : rest = [] ∨ ∃ r rs, rest = r :: rs ∧ gorHdr.isPrefixOf r = true) :
    parseStack (gHdr k) (str "main.foo()" :: str "\t/a/b.go:10 +0x1" :: rest)
      = (.ok (goodStack k), rest) := by
  have hstep : bodyStep pacc0 (str "main.foo()") (str "\t/a/b.go:10 +0x1" :: rest)
      = .cont2 ⟨str "main.foo", [str "main.foo"],
          str "main.foo()" ++ '\n' :: (str "\t/a/b.go:10 +0x1" ++ ['\n']),
          [⟨str "main.foo()", str "\t/a/b.go:10 +0x1", false⟩],
          ⟨str "main.foo()", str "\t/a/b.go:10 +0x1", false⟩⟩ := rfl
  rw [parseStack, parseGoStackHeader_running k]
  rw [show parseBody pacc0 (str "main.foo()" :: str "\t/a/b.go:10 +0x1" :: rest)
      = parseBody ⟨str "main.foo", [str "main.foo"],
          str "main.foo()" ++ '\n' :: (str "\t/a/b.go:10 +0x1" ++ ['\n']),
          [⟨str "main.foo()", str "\t/a/b.go:10 +0x1", false⟩],
          ⟨str "main.foo()", str "\t/a/b.go:10 +0x1", false⟩⟩ rest by
    conv_lhs => rw [parseBody]
    rw [hstep]]
  rcases hrest with rfl | ⟨r, rs, rfl, hr⟩
  · rfl
  · rw [parseBody]
    rw [show bodyStep ⟨str "main.foo", [str "main.foo"],
        str "main.foo()" ++ '\n' :: (str "\t/a/b.go:10 +0x1" ++ ['\n']),
        [⟨str "main.foo()", str "\t/a/b.go:10 +0x1", false⟩],
        ⟨str "main.foo()", str "\t/a/b.go:10 +0x1", false⟩⟩ r rs
      = .stop (.ok ⟨str "main.foo", [str "main.foo"],
          str "main.foo()" ++ '\n' :: (str "\t/a/b.go:10 +0x1" ++ ['\n']),
          [⟨str "main.foo()", str "\t/a/b.go:10 +0x1", false⟩],
          ⟨str "main.foo()", str "\t/a/b.go:10 +0x1", false⟩⟩, r :: rs) by
      rw [bodyStep]
      simp [hr]]
    rfl

/-- A malformed header line: the id is not numeric. -/
def badHdr : List Char := str "goroutine x [running]:"

/-- A well-formed header whose stack body will fail to parse. -/
def bad9Hdr : List Char := str "goroutine 9 [running]:"

/-- A body line that is neither a creator line nor contains a
parenthesis: a hard per-stack parse error. -/
def badCall : List Char := str "what is this"

/-- The error the parser records for `badHdr`. -/
def badHdrErr : PErr := .badID (str "x") (str "goroutine x [running]")

/-- The error the parser records for the stack containing `badCall`. -/
def badCallErr : PErr := .noFunc badCall

/-- C2: the parsing loop never stops at a malformed stack.  A
successfully parsed stack is appended and the loop continues on the
scanner remainder; a failed stack contributes its error and the loop
continues on the remainder (scanning forward to the next header line);
and on the mixed dump family — malformed header, good stack `n`, good
header with malformed call line, good stack `m` — the result is both
good stacks together with both recorded errors, for every pair of ids. -/
theorem parse_collects_errors_and_stacks :
    (∀ (l : List Char) (ls : List (List Char)) (st : Stack) (rem : List (List Char)),
        gorHdr.isPrefixOf l = true → parseStack l ls = (.ok st, rem) →
        parseLoop (l :: ls) = (st :: (parseLoop rem).1, (parseLoop rem).2))
    ∧ (∀ (l : List Char) (ls : List (List Char)) (e : PErr) (rem : List (List Char)),
        gorHdr.isPrefixOf l = true → parseStack l ls = (.error e, rem) →
        parseLoop (l :: ls) = ((parseLoop rem).1, e :: (parseLoop rem).2))
    ∧ (∀ n m : Nat,
        parseLoop (badHdr :: (goodBlock n ++ bad9Hdr :: badCall :: goodBlock m))
          = ([goodStack n, goodStack m], [badHdrErr, badCallErr])) := by
  refine ⟨fun l ls st rem hp h => parseLoop_cons_ok l ls st rem hp h,
    fun l ls e rem hp h => parseLoop_cons_err l ls e rem hp h, ?_⟩
  intro n m
  have h0 : parseStack badHdr (goodBlock n ++ bad9Hdr :: badCall :: goodBlock m)
      = (.error badHdrErr, goodBlock n ++ bad9Hdr :: badCall :: goodBlock m) := rfl
  rw [parseLoop_cons_err _ _ _ _ (by decide) h0]
  rw [show goodBlock n ++ bad9Hdr :: badCall :: goodBlock m
      = gHdr n :: (str "main.foo()" :: str "\t/a/b.go:10 +0x1"
          :: (bad9Hdr :: badCall :: goodBlock m)) from rfl]
  have h1 := parseStack_good_block n (bad9Hdr :: badCall :: goodBlock m)
    (Or.inr ⟨bad9Hdr, badCall :: goodBlock m, rfl, by decide⟩)
  rw [parseLoop_cons_ok _ _ _ _ (gHdr_isPrefix n) h1]
  have h2 : parseStack bad9Hdr (badCall :: goodBlock m)
      = (.error badCallErr, goodBlock m) := rfl
  rw [parseLoop_cons_err _ _ _ _ (by decide) h2]
  rw [show goodBlock m
      = gHdr m :: (str "main.foo()" :: str "\t/a/b.go:10 +0x1"
          :: ([] : List (List Char))) from rfl]
  rw [parseLoop_cons_ok _ _ _ _ (gHdr_isPrefix m) (parseStack_good_block m [] (Or.inl rfl))]
  rw [parseLoop_nil]

/-- Witness for the continuation parts of the C2 theorem: a dump whose
only stack has a malformed header still terminates the loop with the
error recorded and nothing else lost. -/
theorem parse_collects_errors_and_stacks_witness :
    parseLoop [badHdr] = ([], [badHdrErr]) := by
  have h := parse_collects_errors_and_stacks.2.1 badHdr [] badHdrErr [] (by decide) rfl
  rw [h, parseLoop_nil]

/-! ### The dependency-graph claims -/

/-- The graph built from the cyclic mapping `{1:2, 2:1}`. -/
def cycGraph : GGraph := [(2, [1]), (1, [2])]

theorem printSub_cyc_none (fuel : Nat) :
    ∀ (pfx : List Char) (isLast : Bool) (visited : List Int),
      printSub cycGraph defsZero fuel 1 pfx isLast visited = none
      ∧ printSub cycGraph defsZero fuel 2 pfx isLast visited = none := by
  induction fuel using Nat.strong_induction_on with
  | _ fuel ih =>
    match fuel with
    | 0 => exact fun pfx l v => ⟨rfl, rfl⟩
    | 1 => exact fun pfx l v => ⟨rfl, rfl⟩
    | fuel + 2 =>
      intro pfx l v
      have h1 : ∀ p l v, printSub cycGraph defsZero fuel 1 p l v = none :=
        fun p l v => (ih fuel (by omega) p l v).1
      have h2 : ∀ p l v, printSub cycGraph defsZero fuel 2 p l v = none :=
        fun p l v => (ih fuel (by omega) p l v).2
      constructor
      · simp [printSub, printMany, tagLast, lookupG, List.find?, h2]
      · simp [printSub, printMany, tagLast, lookupG, List.find?, h1]

/-- C1: rendering the graph of the cyclic mapping `{1:2, 2:1}` never
terminates: `printSubGraph` descends into children without consulting
the visited set, so the model runs out of fuel for every fuel bound —
the recursion re-enters the cycle forever instead of being bounded by
the visited set. -/
theorem printGraph_cycle_diverges (fuel : Nat) :
    PrintGraphF fuel (BuildGraph [(1, 2), (2, 1)])
      (graphKeys (BuildGraph [(1, 2), (2, 1)])) defsZero = none := by
  have hbg : BuildGraph [(1, 2), (2, 1)] = cycGraph := rfl
  rw [hbg]
  rw [PrintGraphF]
  rw [show findRoots cycGraph (graphKeys cycGraph) = [] from rfl]
  rw [show printRoots cycGraph defsZero fuel [] [] = some ([], []) from rfl]
  have h2 := (printSub_cyc_none fuel [] true []).2
  rw [show graphKeys cycGraph = [2, 1] from rfl]
  simp [printOrphans, h2]

/-- C6 counterexample: for the mapping `{2:1, 4:3}` the graph has the
two roots 1 and 3; `[3,1,2,4]` enumerates exactly the same map keys as
the insertion enumeration `[1,3,2,4]`, yet the two renderings differ
byte-wise (the root blocks come out in enumeration order), so two
renderings of the same mapping need not be byte-identical. -/
theorem printGraph_order_counterexample :
    [3, 1, 2, 4].Perm (graphKeys (BuildGraph [(2, 1), (4, 3)]))
    ∧ PrintGraphF 10 (BuildGraph [(2, 1), (4, 3)])
        (graphKeys (BuildGraph [(2, 1), (4, 3)])) defsZero
      ≠ PrintGraphF 10 (BuildGraph [(2, 1), (4, 3)]) [3, 1, 2, 4] defsZero :=
  ⟨by decide, by decide⟩

theorem perm_pair_cases (l : List Int) (a b : Int) (hab : a ≠ b) (h : l.Perm [a, b]) :
    l = [a, b] ∨ l = [b, a] := by
  have hlen : l.length = 2 := by simpa using h.length_eq
  match l, hlen with
  | [x, y], _ =>
    have hx : x ∈ [a, b] := h.mem_iff.mp (show x ∈ [x, y] by simp)
    have hy : y ∈ [a, b] := h.mem_iff.mp (show y ∈ [x, y] by simp)
    have hca := h.count_eq a
    have hcb := h.count_eq b
    simp at hx hy
    rcases hx with rfl | rfl
    · rcases hy with rfl | rfl
      · exfalso
        simp [List.count_cons, hab, Ne.symm hab] at hca
      · exact Or.inl rfl
    · rcases hy with rfl | rfl
      · exact Or.inr rfl
      · exfalso
        simp [List.count_cons, hab, Ne.symm hab] at hcb

/-- C6 (amended): rendering is deterministic once the enumeration order
of the map's keys is fixed, and child lists are sorted; for the
single-chain mapping `{2:1}` the rendering is even byte-identical for
every enumeration order of the keys.  Byte-identical output across
renderings is not guaranteed in general because the order of roots
follows the map enumeration (see the counterexample). -/
theorem printGraph_single_root_deterministic (order : List Int)
    (h : order.Perm (graphKeys (BuildGraph [(2, 1)]))) :
    PrintGraphF 10 (BuildGraph [(2, 1)]) order defsZero
      = some (str "└── 1 ()\n" ++ str "    └── 2 ()\n") := by
  have h' : order.Perm [1, 2] := by
    rw [show graphKeys (BuildGraph [(2, 1)]) = [1, 2] from rfl] at h
    exact h
  rcases perm_pair_cases order 1 2 (by decide) h' with rfl | rfl <;> decide

/-- Witness for the amended C6 theorem at the reversed enumeration
order. -/
theorem printGraph_single_root_deterministic_witness :
    PrintGraphF 10 (BuildGraph [(2, 1)]) [2, 1] defsZero
      = some (str "└── 1 ()\n" ++ str "    └── 2 ()\n") :=
  printGraph_single_root_deterministic [2, 1] (by decide)

end Goleak
